import Mathlib

/-!
Shallow embedding of `store/postgres/src/dynds/private.rs` (graph-node):
the dynamic data sources table `DataSourcesTable` and its five operations
`load`, `insert`, `revert`, `copy_to` and `remove_offchain`.

The table is modelled as a list of rows together with the two identity
counters of the SQL schema (`vid` and `causality_region` are both
`generated by default as identity`).  The `int4range` column is modelled
by an explicit range type with the bound constructors the Rust code sees
when it decodes a range (`Bound::Included/Excluded/Unbounded`), plus the
empty range.  SQL three-valued logic shows up only through `lower()` /
`upper()` being `null` (here: `none`) and through `is not distinct from`
(here: decidable equality on `Option`).  Database I/O failures are out of
scope; the one error path the component itself produces is
`constraint_violation!` (a returned error value), and `unreachable!` is a
process abort, modelled as a distinct `panic` outcome.
-/

namespace DynDS

/-- A bound of a Postgres `int4range`, as the store layer decodes it
(`Bound<i32>` in the Rust code). -/
inductive Bnd where
  | included : Int → Bnd
  | excluded : Int → Bnd
  | unbounded : Bnd
deriving DecidableEq

/-- A Postgres `int4range` value: the empty range, or a pair of bounds. -/
inductive Rng where
  | empty : Rng
  | mk : Bnd → Bnd → Rng
deriving DecidableEq

/-- Does the lower bound admit block `b`? -/
def bndLoOk (lo : Bnd) (b : Int) : Bool :=
  match lo with
  | Bnd.included l => decide (l ≤ b)
  | Bnd.excluded l => decide (l < b)
  | Bnd.unbounded => true

/-- Does the upper bound admit block `b`? -/
def bndHiOk (hi : Bnd) (b : Int) : Bool :=
  match hi with
  | Bnd.included u => decide (b ≤ u)
  | Bnd.excluded u => decide (b < u)
  | Bnd.unbounded => true

/-- SQL `block_range @> b` (range containment of a point). -/
def rangeContains (r : Rng) (b : Int) : Bool :=
  match r with
  | Rng.empty => false
  | Rng.mk lo hi => bndLoOk lo b && bndHiOk hi b

/-- SQL `lower(r)`: the lower bound value, `null` for the empty range or an
unbounded lower bound. -/
def rangeLower : Rng → Option Int
  | Rng.empty => none
  | Rng.mk (Bnd.included l) _ => some l
  | Rng.mk (Bnd.excluded l) _ => some l
  | Rng.mk Bnd.unbounded _ => none

/-- SQL `upper(r)`: the upper bound value, `null` for the empty range or an
unbounded upper bound. -/
def rangeUpper : Rng → Option Int
  | Rng.empty => none
  | Rng.mk _ (Bnd.included u) => some u
  | Rng.mk _ (Bnd.excluded u) => some u
  | Rng.mk _ Bnd.unbounded => none

/-- The SQL constructor `int4range(lo, hi)` with default `[)` bounds; a
`null` argument gives an unbounded side.  (The code only ever builds
`int4range(x, null)` and the literal `'empty'`.) -/
def int4range (lo hi : Option Int) : Rng :=
  match lo, hi with
  | some l, some u => if u ≤ l then Rng.empty else Rng.mk (Bnd.included l) (Bnd.excluded u)
  | some l, none => Rng.mk (Bnd.included l) Bnd.unbounded
  | none, some u => Rng.mk Bnd.unbounded (Bnd.excluded u)
  | none, none => Rng.mk Bnd.unbounded Bnd.unbounded

/-- A physical row of the `data_sources$` table.  `param` and `id` are
opaque byte blobs and `context` an opaque JSON document; all three are
only compared for equality, so they are modelled by arbitrary types with
decidable equality. -/
structure Row where
  vid : Int
  block_range : Rng
  causality_region : Int
  manifest_idx : Int
  parent : Option Int
  id : Option (List Nat)
  param : Option (List Nat)
  context : Option String
deriving DecidableEq

/-- The logical value exchanged with callers (`StoredDynamicDataSource`).
`manifest_idx` is `u32` in Rust and `i32` in the row; the two casts
(`as u32` on load, `as i32` on insert) are mutually inverse
reinterpretations, so both sides are modelled by the same `Int`. -/
structure StoredDynamicDataSource where
  manifest_idx : Int
  param : Option (List Nat)
  context : Option String
  creation_block : Option Int
  is_offchain : Bool
deriving DecidableEq

/-- The table state: the rows plus the two identity counters of the DDL
(`vid generated by default as identity`, `causality_region generated by
default as identity`).  The list order is the physical insertion order;
`next_vid` and `next_cr` are the counters' next values. -/
structure Table where
  rows : List Row
  next_vid : Int
  next_cr : Int
deriving DecidableEq

/-- The error kind this component itself produces (`constraint_violation!`
builds a `StoreError::ConstraintViolation` with a formatted message; the
model keeps the static part of each format string). -/
inductive StoreError where
  | constraintViolation : String → StoreError
deriving DecidableEq

/-- Outcome of an operation: a returned value, a returned error value, or a
process abort (`unreachable!`), which never returns to the caller. -/
inductive DbResult (α : Type) where
  | ok : α → DbResult α
  | err : StoreError → DbResult α
  | panic : String → DbResult α
deriving DecidableEq

/-- Stable insertion of `x` into `l`: `x` is placed before the first
element `y` with `le x y`.  Folding it over a list from the right gives a
stable sort (ties keep their original relative order). -/
def insertStable {α : Type} (le : α → α → Bool) (x : α) : List α → List α
  | [] => [x]
  | y :: ys => if le x y then x :: y :: ys else y :: insertStable le x ys

/-- Stable sort with respect to the boolean comparison `le`; models both
the SQL `order by` and Rust's stable `sort_by_key` (any two stable sorts
for the same total preorder agree extensionally). -/
def isort {α : Type} (le : α → α → Bool) : List α → List α
  | [] => []
  | x :: xs => insertStable le x (isort le xs)

/-- Effectful map over a list that stops at the first failure; `none`
models the iteration panicking at the first offending element. -/
def mapOpt {α β : Type} (f : α → Option β) : List α → Option (List β)
  | [] => some []
  | a :: as =>
    match f a, mapOpt f as with
    | some b, some bs => some (b :: bs)
    | _, _ => none

/-- Decode one fetched tuple into a `StoredDynamicDataSource` as `load`
does: the creation block is the included lower bound, and a lower bound
that is not `Included` hits `unreachable!("dds with open creation")`. -/
def decodeRow (r : Row) : Option StoredDynamicDataSource :=
  match r.block_range with
  | Rng.mk (Bnd.included l) _ =>
    some { manifest_idx := r.manifest_idx, param := r.param, context := r.context,
           creation_block := some l, is_offchain := decide (0 < r.causality_region) }
  | _ => none

/-- The `Ord` instance of Rust's `Option<i32>` as a boolean `≤`:
`None` sorts before `Some`. -/
def optIntLe : Option Int → Option Int → Bool
  | none, _ => true
  | some _, none => false
  | some a, some b => decide (a ≤ b)

/-- Comparison used by the SQL `order by vid`. -/
def vidLe (r s : Row) : Bool := decide (r.vid ≤ s.vid)

/-- Comparison used by `dses.sort_by_key(|v| v.creation_block)`. -/
def cbLe (a b : StoredDynamicDataSource) : Bool :=
  optIntLe a.creation_block b.creation_block

/-- The SQL filter `block_range @> block` of `load`. -/
def liveAt (block : Int) (r : Row) : Bool := rangeContains r.block_range block

/-- `DataSourcesTable::load`: select the rows containing `block`, ordered
by `vid`; decode each tuple (`unreachable!` on a lower bound that is not
`Included`); stable-sort the decoded values by `creation_block`. -/
def load (t : Table) (block : Int) : DbResult (List StoredDynamicDataSource) :=
  let live := isort vidLe (List.filter (liveAt block) t.rows)
  match mapOpt decodeRow live with
  | none => DbResult.panic "dds with open creation"
  | some dses => DbResult.ok (isort cbLe dses)

/-- Static part of `constraint_violation!("mismatching creation blocks …")`. -/
def errMismatch : StoreError :=
  StoreError.constraintViolation "mismatching creation blocks"

/-- The row written for one record by `insert`: `block_range` is
`int4range($1, null)` with `$1` bound to the record's `creation_block`;
an on-chain record gets `causality_region` 0 explicitly, an off-chain one
is assigned the next identity-counter value; `parent` and `id` are not in
the insert column list and default to `null`. -/
def newRow (t : Table) (ds : StoredDynamicDataSource) : Row :=
  { vid := t.next_vid,
    block_range := int4range ds.creation_block none,
    causality_region := if ds.is_offchain then t.next_cr else 0,
    manifest_idx := ds.manifest_idx,
    parent := none, id := none,
    param := ds.param, context := ds.context }

/-- Execute the single-row insert statement for one record: append the row
and advance the identity counters that were left to auto-assign. -/
def addRow (t : Table) (ds : StoredDynamicDataSource) : Table :=
  { rows := t.rows ++ [newRow t ds],
    next_vid := t.next_vid + 1,
    next_cr := if ds.is_offchain then t.next_cr + 1 else t.next_cr }

/-- `DataSourcesTable::insert`: for each record in order, first check
`creation_block == Some(block)` (returning `errMismatch` without writing
that record, earlier writes staying in place), then execute the insert;
on success return the total row count. -/
def insert (t : Table) (dss : List StoredDynamicDataSource) (block : Int) :
    Table × DbResult Nat :=
  match dss with
  | [] => (t, DbResult.ok 0)
  | ds :: rest =>
    if ds.creation_block = some block then
      match insert (addRow t ds) rest block with
      | (t', DbResult.ok n) => (t', DbResult.ok (n + 1))
      | (t', e) => (t', e)
    else (t, DbResult.err errMismatch)

/-- The SQL delete condition of `revert`:
`block_range @> $1 and lower(block_range) = $1` (the equality is
null-rejecting, so a row with a `null` lower bound is never deleted). -/
def delCond (block : Int) (r : Row) : Bool :=
  rangeContains r.block_range block && decide (rangeLower r.block_range = some block)

/-- `DataSourcesTable::revert`: delete every row containing `block` whose
lower bound equals `block`. -/
def revert (t : Table) (block : Int) : Table :=
  { t with rows := List.filter (fun r => ! delCond block r) t.rows }

/-- The SQL selection condition of `copy_to`:
`lower(e.block_range) <= $1`; a `null` lower bound (empty range or
unbounded lower) makes the comparison `null`, so the row is not selected. -/
def selB (target : Int) (r : Row) : Bool :=
  match rangeLower r.block_range with
  | some l => decide (l ≤ target)
  | none => false

/-- The SQL `case` expression of `copy_to`: keep the range when
`upper(e.block_range) <= $1` (false when `upper` is `null`), otherwise
rebuild it as `int4range(lower(e.block_range), null)`. -/
def reboundRange (target : Int) (r : Rng) : Rng :=
  match rangeUpper r with
  | some u => if u ≤ target then r else int4range (rangeLower r) none
  | none => int4range (rangeLower r) none

/-- One row produced by the `insert … select` of `copy_to`: `vid` is
auto-assigned by the destination's identity counter, every other listed
column is copied (with the range re-bounded); the explicit
`causality_region` value leaves the destination's region counter alone. -/
def copiedRow (target : Int) (v : Int) (r : Row) : Row :=
  { vid := v, block_range := reboundRange target r.block_range,
    causality_region := r.causality_region, manifest_idx := r.manifest_idx,
    parent := r.parent, id := r.id, param := r.param, context := r.context }

/-- The rows written by the `insert … select`, with `vid` values assigned
consecutively from `v`. -/
def copiedRows (target : Int) (v : Int) : List Row → List Row
  | [] => []
  | r :: rs => copiedRow target v r :: copiedRows target (v + 1) rs

/-- `DataSourcesTable::copy_to`: if the destination already has rows,
return their count unchanged; otherwise copy every selected source row
(re-bounded) into the destination and return the number copied. -/
def copy_to (src dst : Table) (target : Int) : Table × Nat :=
  if 0 < dst.rows.length then (dst, dst.rows.length)
  else
    let sel := List.filter (selB target) src.rows
    let dst' := { dst with rows := dst.rows ++ copiedRows target dst.next_vid sel,
                           next_vid := dst.next_vid + sel.length }
    (dst', sel.length)

/-- `constraint_violation!` message for an on-chain record passed to
`remove_offchain` (verbatim from the code). -/
def errOnchain : StoreError :=
  StoreError.constraintViolation "called remove_offchain with onchain data sources"

/-- Static part of `constraint_violation!("expected to remove at most one
offchain data source but would remove …")`. -/
def errMulti : StoreError :=
  StoreError.constraintViolation "expected to remove at most one offchain data source"

/-- The SQL `where` clause of the `remove_offchain` update: value equality
on `manifest_idx` and null-safe (`is not distinct from`) equality on
`param`, `context` and `lower(block_range)` against the record's
`creation_block` — an absent value matches only an absent stored value. -/
def matchesDS (ds : StoredDynamicDataSource) (r : Row) : Bool :=
  decide (r.manifest_idx = ds.manifest_idx) && decide (r.param = ds.param) &&
  decide (r.context = ds.context) &&
  decide (rangeLower r.block_range = ds.creation_block)

/-- `set block_range = 'empty'::int4range` on one row. -/
def setEmpty (r : Row) : Row := { r with block_range := Rng.empty }

/-- Execute the update statement for one record: every matching row has
its range set to the empty range. -/
def applyRemove (ds : StoredDynamicDataSource) (t : Table) : Table :=
  { t with rows := t.rows.map (fun r => if matchesDS ds r then setEmpty r else r) }

/-- `DataSourcesTable::remove_offchain`: for each record in order, an
on-chain record fails before its update; otherwise the update runs and,
if it affected more than one row, the call fails after that update;
otherwise the loop continues. -/
def remove_offchain (t : Table) :
    List StoredDynamicDataSource → Table × DbResult Unit
  | [] => (t, DbResult.ok ())
  | ds :: rest =>
    if ds.is_offchain then
      let count := (List.filter (matchesDS ds) t.rows).length
      let t' := applyRemove ds t
      if 1 < count then (t', DbResult.err errMulti)
      else remove_offchain t' rest
    else (t, DbResult.err errOnchain)

/-- Well-formedness of a table state: the physical row order is the `vid`
order and `vid` is a key (strictly increasing along the list). -/
abbrev WF (t : Table) : Prop :=
  List.Pairwise (fun r s => r.vid < s.vid) t.rows

/-- Does the row's range have an `Included` lower bound or is it the empty
range (a soft-deleted row)?  Invariant I1 requires this of every row; only
such rows can be decoded by `load` when they are live. -/
def goodLower (r : Row) : Bool :=
  match r.block_range with
  | Rng.empty => true
  | Rng.mk (Bnd.included _) _ => true
  | Rng.mk (Bnd.excluded _) _ => false
  | Rng.mk Bnd.unbounded _ => false

/-- Invariant I1 of the spec, as it constrains rows that can ever be
live: every row's range is either empty (a soft-deleted row) or has an
`Included` creation block as its lower bound. -/
abbrev I1 (t : Table) : Prop :=
  ∀ r ∈ t.rows, goodLower r = true

/-- The logical value a well-formed row decodes to. -/
def toValue (r : Row) : StoredDynamicDataSource :=
  { manifest_idx := r.manifest_idx, param := r.param, context := r.context,
    creation_block := rangeLower r.block_range,
    is_offchain := decide (0 < r.causality_region) }

/-- Strict order on `Option Int` matching Rust's `Option<i32>` ordering
(`None` below every `Some`). -/
def optIntLt : Option Int → Option Int → Prop
  | none, none => False
  | none, some _ => True
  | some _, none => False
  | some a, some b => a < b

/-- Strict lexicographic `(creation_block, vid)` order on rows. -/
def lexLt (r s : Row) : Prop :=
  optIntLt (rangeLower r.block_range) (rangeLower s.block_range) ∨
  (rangeLower r.block_range = rangeLower s.block_range ∧ r.vid < s.vid)

/-- Row-level version of the `creation_block` comparison. -/
def rowCbLe (r s : Row) : Bool :=
  optIntLe (rangeLower r.block_range) (rangeLower s.block_range)

/-- Number of off-chain records in a batch (how often the causality-region
identity counter advances during `insert`). -/
def countOff (dss : List StoredDynamicDataSource) : Nat :=
  (List.filter (fun d => d.is_offchain) dss).length

/-- An on-chain row created at block 10 (`vid` 1) and an off-chain row
created at block 5 (`vid` 2), concrete data for the witnesses. -/
def wRowA : Row :=
  { vid := 1, block_range := Rng.mk (Bnd.included 10) Bnd.unbounded,
    causality_region := 0, manifest_idx := 1, parent := none, id := none,
    param := none, context := none }

def wRowB : Row :=
  { vid := 2, block_range := Rng.mk (Bnd.included 5) Bnd.unbounded,
    causality_region := 3, manifest_idx := 2, parent := none, id := none,
    param := some [7], context := some "ctx" }

def wTable : Table := { rows := [wRowA, wRowB], next_vid := 3, next_cr := 4 }

/-- A corrupted row violating invariant I1: its lower bound is `Excluded`. -/
def badRow : Row :=
  { vid := 1, block_range := Rng.mk (Bnd.excluded 0) Bnd.unbounded,
    causality_region := 0, manifest_idx := 1, parent := none, id := none,
    param := none, context := none }

def badTable : Table := { rows := [badRow], next_vid := 2, next_cr := 1 }

/-- A fresh table as created by the DDL (both identity counters at 1). -/
def emptyTable : Table := { rows := [], next_vid := 1, next_cr := 1 }

/-- A concrete on-chain logical record created at block `b`. -/
def wOn (b : Int) : StoredDynamicDataSource :=
  { manifest_idx := 1, param := none, context := none,
    creation_block := some b, is_offchain := false }

/-- A concrete off-chain logical record created at block `b`. -/
def wOff (b : Int) : StoredDynamicDataSource :=
  { manifest_idx := 2, param := some [7], context := some "ctx",
    creation_block := some b, is_offchain := true }

/-- A duplicate of `wRowB` under value equality (only `vid` differs), and a
table in which the deduplication invariant I4 is violated. -/
def wRowB2 : Row := { wRowB with vid := 9 }

def dupTable : Table := { rows := [wRowB, wRowB2], next_vid := 10, next_cr := 4 }

/-- One step of soft deletion: a row is either left alone or has its range
emptied; `remove_offchain` only ever transforms rows this way. -/
def emptyStep (r r' : Row) : Prop := r' = r ∨ r' = setEmpty r

/-! ### Basic lemmas about the stable sort -/

theorem mem_insertStable {α : Type} (le : α → α → Bool) (x a : α) (l : List α) :
    a ∈ insertStable le x l ↔ a = x ∨ a ∈ l := by
  induction l with
  | nil => simp [insertStable]
  | cons y ys ih =>
    by_cases h : le x y = true
    · simp [insertStable, h]
    · simp only [insertStable, if_neg h, List.mem_cons, ih]
      tauto

theorem insertStable_perm {α : Type} (le : α → α → Bool) (x : α) (l : List α) :
    List.Perm (insertStable le x l) (x :: l) := by
  induction l with
  | nil => simp [insertStable]
  | cons y ys ih =>
    by_cases h : le x y = true
    · simp [insertStable, h]
    · simp only [insertStable, if_neg h]
      exact List.Perm.trans (List.Perm.cons y ih) (List.Perm.swap x y ys)

theorem isort_perm {α : Type} (le : α → α → Bool) (l : List α) :
    List.Perm (isort le l) l := by
  induction l with
  | nil => simp [isort]
  | cons x xs ih =>
    exact List.Perm.trans (insertStable_perm le x (isort le xs)) (List.Perm.cons x ih)

theorem mem_isort {α : Type} (le : α → α → Bool) (a : α) (l : List α) :
    a ∈ isort le l ↔ a ∈ l :=
  (isort_perm le l).mem_iff

theorem insertStable_of_le_head {α : Type} (le : α → α → Bool) (x y : α) (ys : List α)
    (h : le x y = true) : insertStable le x (y :: ys) = x :: y :: ys := by
  simp [insertStable, h]

theorem isort_of_sorted {α : Type} (le : α → α → Bool) (l : List α)
    (h : List.Pairwise (fun a b => le a b = true) l) : isort le l = l := by
  induction l with
  | nil => rfl
  | cons x xs ih =>
    rcases List.pairwise_cons.mp h with ⟨hx, hxs⟩
    rw [isort, ih hxs]
    cases xs with
    | nil => rfl
    | cons y ys => exact insertStable_of_le_head le x y ys (hx y (List.mem_cons_self y ys))

theorem map_insertStable {α β : Type} (le : β → β → Bool) (le' : α → α → Bool)
    (f : α → β) (hc : ∀ a b, le (f a) (f b) = le' a b) (x : α) (l : List α) :
    insertStable le (f x) (l.map f) = (insertStable le' x l).map f := by
  induction l with
  | nil => rfl
  | cons y ys ih =>
    by_cases h : le' x y = true
    · simp [insertStable, hc, h]
    · simp only [List.map_cons, insertStable, hc, if_neg h, ih]

theorem map_isort {α β : Type} (le : β → β → Bool) (le' : α → α → Bool)
    (f : α → β) (hc : ∀ a b, le (f a) (f b) = le' a b) (l : List α) :
    isort le (l.map f) = (isort le' l).map f := by
  induction l with
  | nil => rfl
  | cons x xs ih =>
    simp only [List.map_cons, isort, ih]
    exact map_insertStable le le' f hc x (isort le' xs)

/-! ### The `Option Int` order of `sort_by_key` -/

theorem optIntLe_or (a b : Option Int) : optIntLe a b = true ∨ optIntLe b a = true := by
  cases a <;> cases b <;> simp [optIntLe] <;> omega

theorem optIntLt_of_not_le {a b : Option Int} (h : optIntLe a b = false) : optIntLt b a := by
  cases a <;> cases b <;> simp_all [optIntLe, optIntLt] <;> omega

theorem optIntLt_or_eq_of_le {a b : Option Int} (h : optIntLe a b = true) :
    optIntLt a b ∨ a = b := by
  cases a <;> cases b <;> simp_all [optIntLe, optIntLt]
  omega

theorem optIntLe_of_lt {a b : Option Int} (h : optIntLt a b) : optIntLe a b = true := by
  cases a <;> cases b <;> simp_all [optIntLe, optIntLt]
  omega

/-! ### Stability: sorting a vid-increasing list by creation block gives
the strict lexicographic `(creation_block, vid)` order -/

theorem lexLt_cbLe {r s : Row} (h : lexLt r s) : rowCbLe r s = true := by
  rcases h with h | ⟨h, _⟩
  · exact optIntLe_of_lt h
  · simp [rowCbLe, h]
    cases rangeLower s.block_range <;> simp [optIntLe]

theorem insertStable_lexLt (x : Row) (l : List Row)
    (hl : List.Pairwise lexLt l) (hv : ∀ y ∈ l, x.vid < y.vid) :
    List.Pairwise lexLt (insertStable rowCbLe x l) := by
  induction l with
  | nil => simp [insertStable, List.pairwise_cons]
  | cons y ys ih =>
    rcases List.pairwise_cons.mp hl with ⟨hy, hys⟩
    by_cases h : rowCbLe x y = true
    · rw [insertStable_of_le_head _ _ _ _ h]
      refine List.pairwise_cons.mpr ⟨?_, hl⟩
      intro z hz
      have hxz : optIntLe (rangeLower x.block_range) (rangeLower z.block_range) = true := by
        rcases List.mem_cons.mp hz with rfl | hz'
        · exact h
        · have hyz : rowCbLe y z = true := lexLt_cbLe (hy z hz')
          rcases optIntLt_or_eq_of_le h with h1 | h1
          · rcases optIntLt_or_eq_of_le hyz with h2 | h2
            · apply optIntLe_of_lt
              cases hx : rangeLower x.block_range <;> cases hzr : rangeLower z.block_range <;>
                cases hyr : rangeLower y.block_range <;>
                simp_all [optIntLt] <;> omega
            · rw [← h2]; exact h
          · rw [h1]; exact hyz
      rcases optIntLt_or_eq_of_le hxz with h1 | h1
      · exact Or.inl h1
      · exact Or.inr ⟨h1, hv z hz⟩
    · simp only [insertStable, if_neg h]
      refine List.pairwise_cons.mpr ⟨?_, ih hys (fun z hz => hv z (List.mem_cons_of_mem y hz))⟩
      intro z hz
      rcases (mem_insertStable rowCbLe x z ys).mp hz with rfl | hz'
      · exact Or.inl (optIntLt_of_not_le (Bool.eq_false_iff.mpr h))
      · exact hy z hz'

theorem isort_lexLt (l : List Row) (h : List.Pairwise (fun r s => r.vid < s.vid) l) :
    List.Pairwise lexLt (isort rowCbLe l) := by
  induction l with
  | nil => simp [isort]
  | cons x xs ih =>
    rcases List.pairwise_cons.mp h with ⟨hx, hxs⟩
    rw [isort]
    refine insertStable_lexLt x (isort rowCbLe xs) (ih hxs) ?_
    intro y hy
    exact hx y ((mem_isort rowCbLe y xs).mp hy)

/-! ### Lemmas about `mapOpt` (the decode loop of `load`) -/

theorem mapOpt_eq_map {α β : Type} (f : α → Option β) (g : α → β) (l : List α)
    (h : ∀ a ∈ l, f a = some (g a)) : mapOpt f l = some (l.map g) := by
  induction l with
  | nil => rfl
  | cons a as ih =>
    have ha := h a (List.mem_cons_self a as)
    have has := ih (fun x hx => h x (List.mem_cons_of_mem a hx))
    simp [mapOpt, ha, has]

theorem mapOpt_eq_none {α β : Type} (f : α → Option β) (l : List α) (a : α)
    (ha : a ∈ l) (hf : f a = none) : mapOpt f l = none := by
  induction l with
  | nil => cases ha
  | cons x xs ih =>
    rcases List.mem_cons.mp ha with rfl | hx
    · simp [mapOpt, hf]
    · rw [mapOpt, ih hx]
      cases f x <;> rfl

theorem mapOpt_mem {α β : Type} (f : α → Option β) (l : List α) (bs : List β)
    (h : mapOpt f l = some bs) (b : β) (hb : b ∈ bs) : ∃ a ∈ l, f a = some b := by
  induction l generalizing bs with
  | nil =>
    simp only [mapOpt, Option.some.injEq] at h
    subst h; cases hb
  | cons x xs ih =>
    rw [mapOpt] at h
    cases hfx : f x with
    | none => rw [hfx] at h; cases h
    | some y =>
      rw [hfx] at h
      cases hrest : mapOpt f xs with
      | none => rw [hrest] at h; cases h
      | some ys =>
        rw [hrest] at h
        simp only [Option.some.injEq] at h
        subst h
        rcases List.mem_cons.mp hb with rfl | hby
        · exact ⟨x, List.mem_cons_self x xs, hfx⟩
        · rcases ih ys hrest hby with ⟨a, ha, hfa⟩
          exact ⟨a, List.mem_cons_of_mem x ha, hfa⟩

/-! ### Lemmas about `load` -/

/-- A value returned by a successful `load` comes from a row of the table
that contains the queried block and decodes to that value. -/
theorem load_ok_mem (t : Table) (block : Int) (l : List StoredDynamicDataSource)
    (h : load t block = DbResult.ok l) (v : StoredDynamicDataSource) (hv : v ∈ l) :
    ∃ r ∈ t.rows, liveAt block r = true ∧ decodeRow r = some v := by
  simp only [load] at h
  cases hm : mapOpt decodeRow (isort vidLe (List.filter (liveAt block) t.rows)) with
  | none => rw [hm] at h; cases h
  | some dses =>
    rw [hm] at h
    simp only [DbResult.ok.injEq] at h
    subst h
    have hv' : v ∈ dses := (mem_isort cbLe v dses).mp hv
    rcases mapOpt_mem decodeRow _ dses hm v hv' with ⟨r, hr, hdec⟩
    have hr' : r ∈ List.filter (liveAt block) t.rows :=
      (mem_isort vidLe r _).mp hr
    rcases List.mem_filter.mp hr' with ⟨hmem, hlive⟩
    exact ⟨r, hmem, hlive, hdec⟩

/-- `load` only looks at the rows that contain the queried block. -/
theorem load_congr (t t' : Table) (block : Int)
    (h : List.filter (liveAt block) t.rows = List.filter (liveAt block) t'.rows) :
    load t block = load t' block := by
  simp only [load]
  rw [h]

/-- If some row containing the block fails to decode, `load` panics. -/
theorem load_panics (t : Table) (block : Int) (r : Row) (hr : r ∈ t.rows)
    (hlive : liveAt block r = true) (hdec : decodeRow r = none) :
    load t block = DbResult.panic "dds with open creation" := by
  simp only [load]
  have hmem : r ∈ isort vidLe (List.filter (liveAt block) t.rows) :=
    (mem_isort vidLe r _).mpr (List.mem_filter.mpr ⟨hr, hlive⟩)
  rw [mapOpt_eq_none decodeRow _ r hmem hdec]

/-- A live row with a good lower bound decodes to its logical value. -/
theorem decode_of_good (r : Row) (hg : goodLower r = true) (b : Int)
    (hl : liveAt b r = true) : decodeRow r = some (toValue r) := by
  cases hr : r.block_range with
  | empty => rw [liveAt, hr] at hl; simp [rangeContains] at hl
  | mk lo hi =>
    cases lo with
    | included l => simp [decodeRow, toValue, hr, rangeLower]
    | excluded l => rw [goodLower] at hg; rw [hr] at hg; simp at hg
    | unbounded => rw [goodLower] at hg; rw [hr] at hg; simp at hg

/-- C1: over a well-formed table satisfying invariant I1, `load b` succeeds
and returns exactly the rows whose `block_range` contains `b`, mapped to
their logical value form, in strictly increasing `(creation_block, vid)`
order (earlier creation blocks first, ties in insertion order). -/
theorem C1_load_exact_and_ordered (t : Table) (b : Int) (hwf : WF t) (h1 : I1 t) :
    ∃ rs : List Row,
      List.Perm rs (List.filter (liveAt b) t.rows) ∧
      List.Pairwise lexLt rs ∧
      load t b = DbResult.ok (List.map toValue rs) := by
  refine ⟨isort rowCbLe (List.filter (liveAt b) t.rows), isort_perm _ _, ?_, ?_⟩
  · exact isort_lexLt _ (hwf.filter _)
  · have hsorted : isort vidLe (List.filter (liveAt b) t.rows)
        = List.filter (liveAt b) t.rows := by
      apply isort_of_sorted
      refine (hwf.filter _).imp ?_
      intro r s h
      simp only [vidLe, decide_eq_true_eq]
      omega
    have hdec : mapOpt decodeRow (List.filter (liveAt b) t.rows)
        = some (List.map toValue (List.filter (liveAt b) t.rows)) := by
      apply mapOpt_eq_map
      intro r hr
      rcases List.mem_filter.mp hr with ⟨hmem, hlive⟩
      exact decode_of_good r (h1 r hmem) b hlive
    simp only [load, hsorted, hdec]
    rw [map_isort cbLe rowCbLe toValue (fun a c => rfl)]

/-- Witness for C1 at the concrete table `wTable` and block 12. -/
theorem C1_witness :
    WF wTable ∧ I1 wTable ∧
    ∃ rs : List Row,
      List.Perm rs (List.filter (liveAt 12) wTable.rows) ∧
      List.Pairwise lexLt rs ∧
      load wTable 12 = DbResult.ok (List.map toValue rs) :=
  ⟨by decide, by decide, C1_load_exact_and_ordered wTable 12 (by decide) (by decide)⟩

/-- C4 counterexample: at the concrete table `badTable` (one row whose
lower bound is `Excluded 0`, covering block 5), `load` does not return a
constraint-violation error value — it aborts via `unreachable!`, so the
claim that the error is returned to the caller fails. -/
theorem C4_counterexample :
    rangeContains badRow.block_range 5 = true ∧
    load badTable 5 = DbResult.panic "dds with open creation" ∧
    ∀ e : StoreError, load badTable 5 ≠ DbResult.err e := by
  refine ⟨by decide, by decide, ?_⟩
  intro e h
  rw [show load badTable 5 = DbResult.panic "dds with open creation" from by decide] at h
  cases h

/-- C4 (amended): when a table contains a row whose `block_range` lower
bound is `Excluded` or `Unbounded` and the row covers block `b`, `load b`
fails fast — not by returning an error value but by aborting the process
with `unreachable!("dds with open creation")`; the row is not silently
skipped. -/
theorem C4_amended_load_panics (t : Table) (b : Int) (r : Row) (hr : r ∈ t.rows)
    (hlive : liveAt b r = true) (hbad : goodLower r = false) :
    load t b = DbResult.panic "dds with open creation" := by
  apply load_panics t b r hr hlive
  cases hrng : r.block_range with
  | empty => rw [liveAt, hrng] at hlive; simp [rangeContains] at hlive
  | mk lo hi =>
    cases lo with
    | included l => rw [goodLower] at hbad; rw [hrng] at hbad; simp at hbad
    | excluded l => simp [decodeRow, hrng]
    | unbounded => simp [decodeRow, hrng]

/-- Witness for the amended C4 at the concrete `badTable` and block 5. -/
theorem C4_witness :
    badRow ∈ badTable.rows ∧ liveAt 5 badRow = true ∧ goodLower badRow = false ∧
    load badTable 5 = DbResult.panic "dds with open creation" :=
  ⟨by decide, by decide, by decide,
    C4_amended_load_panics badTable 5 badRow (by decide) (by decide) (by decide)⟩

/-! ### Lemmas about `insert` -/

theorem insert_cons_fst (t : Table) (ds : StoredDynamicDataSource)
    (rest : List StoredDynamicDataSource) (block : Int)
    (h : ds.creation_block = some block) :
    (insert t (ds :: rest) block).1 = (insert (addRow t ds) rest block).1 := by
  simp only [insert, if_pos h]
  rcases hrec : insert (addRow t ds) rest block with ⟨t', r⟩
  cases r <;> rfl

theorem insert_cons_snd (t : Table) (ds : StoredDynamicDataSource)
    (rest : List StoredDynamicDataSource) (block : Int)
    (h : ds.creation_block = some block) :
    (insert t (ds :: rest) block).2 =
      (match (insert (addRow t ds) rest block).2 with
       | DbResult.ok n => DbResult.ok (n + 1)
       | e => e) := by
  simp only [insert, if_pos h]
  rcases hrec : insert (addRow t ds) rest block with ⟨t', r⟩
  cases r <;> rfl

/-- Whatever records pass the creation-block check, every row `insert`
writes has the open-ended validity interval of that block. -/
theorem insert_rows_spec (block : Int) (dss : List StoredDynamicDataSource) :
    ∀ t : Table, ∃ new, (insert t dss block).1.rows = t.rows ++ new ∧
      ∀ r ∈ new, r.block_range = Rng.mk (Bnd.included block) Bnd.unbounded := by
  induction dss with
  | nil => intro t; exact ⟨[], by simp [insert], by simp⟩
  | cons ds rest ih =>
    intro t
    by_cases h : ds.creation_block = some block
    · rcases ih (addRow t ds) with ⟨new, hrows, hprop⟩
      refine ⟨newRow t ds :: new, ?_, ?_⟩
      · rw [insert_cons_fst t ds rest block h, hrows]
        simp [addRow]
      · intro r hr
        rcases List.mem_cons.mp hr with rfl | hr'
        · simp [newRow, h, int4range]
        · exact hprop r hr'
    · refine ⟨[], ?_, by simp⟩
      simp [insert, h]

/-- `insert` succeeds exactly when every record carries the insert block
as its creation block. -/
theorem insert_ok_iff (block : Int) (dss : List StoredDynamicDataSource) :
    ∀ t : Table, (∃ n, (insert t dss block).2 = DbResult.ok n) ↔
      ∀ d ∈ dss, d.creation_block = some block := by
  induction dss with
  | nil => intro t; simp [insert]
  | cons ds rest ih =>
    intro t
    by_cases h : ds.creation_block = some block
    · rw [insert_cons_snd t ds rest block h]
      constructor
      · rintro ⟨n, hn⟩
        intro d hd
        rcases List.mem_cons.mp hd with rfl | hd'
        · exact h
        · refine ((ih (addRow t ds)).mp ?_) d hd'
          cases hrec : (insert (addRow t ds) rest block).2 with
          | ok m => exact ⟨m, rfl⟩
          | err e => rw [hrec] at hn; exact absurd hn (by simp)
          | panic m => rw [hrec] at hn; exact absurd hn (by simp)
      · intro hall
        rcases (ih (addRow t ds)).mpr
          (fun d hd => hall d (List.mem_cons_of_mem ds hd)) with ⟨m, hm⟩
        exact ⟨m + 1, by rw [hm]⟩
    · constructor
      · rintro ⟨n, hn⟩
        simp [insert, h] at hn
      · intro hall
        exact absurd (hall ds (List.mem_cons_self ds rest)) h

theorem countOff_cons (d : StoredDynamicDataSource) (l : List StoredDynamicDataSource) :
    countOff (d :: l) = (if d.is_offchain then 1 else 0) + countOff l := by
  cases h : d.is_offchain <;> simp [countOff, List.filter, h] <;> omega

/-- Full behaviour of a successful batched `insert`. -/
theorem insert_all_ok (block : Int) (dss : List StoredDynamicDataSource) :
    ∀ t : Table, (∀ d ∈ dss, d.creation_block = some block) →
    ∃ new : List Row,
      (insert t dss block).2 = DbResult.ok dss.length ∧
      (insert t dss block).1.rows = t.rows ++ new ∧
      (insert t dss block).1.next_cr = t.next_cr + (countOff dss : Int) ∧
      new.length = dss.length ∧
      (∀ i (hi : i < dss.length) (hi2 : i < new.length),
        (new.get ⟨i, hi2⟩).block_range = Rng.mk (Bnd.included block) Bnd.unbounded ∧
        (new.get ⟨i, hi2⟩).manifest_idx = (dss.get ⟨i, hi⟩).manifest_idx ∧
        (new.get ⟨i, hi2⟩).param = (dss.get ⟨i, hi⟩).param ∧
        (new.get ⟨i, hi2⟩).context = (dss.get ⟨i, hi⟩).context ∧
        (new.get ⟨i, hi2⟩).causality_region =
          (if (dss.get ⟨i, hi⟩).is_offchain
            then t.next_cr + (countOff (dss.take i) : Int) else 0)) := by
  induction dss with
  | nil =>
    intro t _
    refine ⟨[], by simp [insert], by simp [insert], by simp [insert, countOff], rfl, ?_⟩
    intro i hi hi2
    exact absurd hi (Nat.not_lt_zero i)
  | cons ds rest ih =>
    intro t hall
    have h : ds.creation_block = some block := hall ds (List.mem_cons_self ds rest)
    have hrest : ∀ d ∈ rest, d.creation_block = some block :=
      fun d hd => hall d (List.mem_cons_of_mem ds hd)
    rcases ih (addRow t ds) hrest with ⟨new, hsnd, hrows, hcr, hlen, hidx⟩
    refine ⟨newRow t ds :: new, ?_, ?_, ?_, by simp [hlen], ?_⟩
    · rw [insert_cons_snd t ds rest block h, hsnd]
      simp
    · rw [insert_cons_fst t ds rest block h, hrows]
      simp [addRow]
    · rw [insert_cons_fst t ds rest block h, hcr, countOff_cons]
      cases hoff : ds.is_offchain <;> simp [addRow, hoff] <;> push_cast <;> ring
    · intro i hi hi2
      cases i with
      | zero =>
        refine ⟨by simp [newRow, h, int4range], by simp [newRow], by simp [newRow],
          by simp [newRow], ?_⟩
        cases hoff : ds.is_offchain <;> simp [newRow, countOff, hoff]
      | succ j =>
        have hj : j < rest.length := by simpa using hi
        have hj2 : j < new.length := by simpa using hi2
        rcases hidx j hj hj2 with ⟨h1, h2, h3, h4, h5⟩
        refine ⟨by simpa using h1, by simpa using h2, by simpa using h3,
          by simpa using h4, ?_⟩
        have hget : ((ds :: rest).get ⟨j + 1, hi⟩) = rest.get ⟨j, hj⟩ := rfl
        have hget2 : ((newRow t ds :: new).get ⟨j + 1, hi2⟩) = new.get ⟨j, hj2⟩ := rfl
        rw [hget, hget2, h5, List.take_succ_cons, countOff_cons]
        cases hoff : ds.is_offchain <;>
          cases hoff2 : (rest.get ⟨j, hj⟩).is_offchain <;>
          simp [addRow, hoff, hoff2] <;> push_cast <;> ring

/-- C5: on a successful batched insert (every record created at `block`),
each record becomes one row with validity interval `[block, +∞)`; on-chain
records are written with causality region exactly 0, off-chain records get
consecutive values auto-assigned from the table's causality-region identity
counter (which advances once per off-chain record); the call returns the
number of rows inserted, which equals the number of input records. -/
theorem C5_insert_behavior (t : Table) (dss : List StoredDynamicDataSource)
    (block : Int) (h : ∀ d ∈ dss, d.creation_block = some block) :
    ∃ new : List Row,
      (insert t dss block).2 = DbResult.ok dss.length ∧
      (insert t dss block).1.rows = t.rows ++ new ∧
      (insert t dss block).1.next_cr = t.next_cr + (countOff dss : Int) ∧
      new.length = dss.length ∧
      (∀ i (hi : i < dss.length) (hi2 : i < new.length),
        (new.get ⟨i, hi2⟩).block_range = Rng.mk (Bnd.included block) Bnd.unbounded ∧
        (new.get ⟨i, hi2⟩).manifest_idx = (dss.get ⟨i, hi⟩).manifest_idx ∧
        (new.get ⟨i, hi2⟩).param = (dss.get ⟨i, hi⟩).param ∧
        (new.get ⟨i, hi2⟩).context = (dss.get ⟨i, hi⟩).context ∧
        (new.get ⟨i, hi2⟩).causality_region =
          (if (dss.get ⟨i, hi⟩).is_offchain
            then t.next_cr + (countOff (dss.take i) : Int) else 0)) :=
  insert_all_ok block dss t h

/-- Witness for C5: inserting one on-chain and one off-chain record at
block 20 into `wTable`. -/
theorem C5_witness :
    (∀ d ∈ [wOn 20, wOff 20], d.creation_block = some 20) ∧
    ∃ new : List Row,
      (insert wTable [wOn 20, wOff 20] 20).2 =
        DbResult.ok (List.length [wOn 20, wOff 20]) ∧
      (insert wTable [wOn 20, wOff 20] 20).1.rows = wTable.rows ++ new ∧
      (insert wTable [wOn 20, wOff 20] 20).1.next_cr =
        wTable.next_cr + (countOff [wOn 20, wOff 20] : Int) ∧
      new.length = List.length [wOn 20, wOff 20] ∧
      (∀ i (hi : i < List.length [wOn 20, wOff 20]) (hi2 : i < new.length),
        (new.get ⟨i, hi2⟩).block_range = Rng.mk (Bnd.included 20) Bnd.unbounded ∧
        (new.get ⟨i, hi2⟩).manifest_idx = (List.get [wOn 20, wOff 20] ⟨i, hi⟩).manifest_idx ∧
        (new.get ⟨i, hi2⟩).param = (List.get [wOn 20, wOff 20] ⟨i, hi⟩).param ∧
        (new.get ⟨i, hi2⟩).context = (List.get [wOn 20, wOff 20] ⟨i, hi⟩).context ∧
        (new.get ⟨i, hi2⟩).causality_region =
          (if (List.get [wOn 20, wOff 20] ⟨i, hi⟩).is_offchain
            then wTable.next_cr + (countOff (List.take i [wOn 20, wOff 20]) : Int) else 0)) :=
  ⟨by decide, C5_insert_behavior wTable [wOn 20, wOff 20] 20 (by decide)⟩

/-- If every record up to a failing one is well-formed, `insert` stops at
the failing record with `errMismatch`, leaving exactly the rows written
for the earlier records. -/
theorem insert_fail_at (block : Int) (ds : StoredDynamicDataSource)
    (hds : ds.creation_block ≠ some block) (post : List StoredDynamicDataSource)
    (pre : List StoredDynamicDataSource) :
    ∀ t : Table, (∀ d ∈ pre, d.creation_block = some block) →
    insert t (pre ++ ds :: post) block =
      ((insert t pre block).1, DbResult.err errMismatch) := by
  induction pre with
  | nil =>
    intro t _
    simp [insert, hds]
  | cons d pre' ih =>
    intro t hpre
    have hd : d.creation_block = some block := hpre d (List.mem_cons_self d pre')
    have hpre' : ∀ x ∈ pre', x.creation_block = some block :=
      fun x hx => hpre x (List.mem_cons_of_mem d hx)
    have hsplit : (d :: pre') ++ ds :: post = d :: (pre' ++ ds :: post) := rfl
    rw [hsplit, insert_cons_fst t d pre' block hd]
    simp only [insert, if_pos hd]
    rw [ih (addRow t d) hpre']

/-- C6: the creation-block check of `insert` is per record, in input
order: reaching a record whose `creation_block` differs from
`Some(block)` fails with a constraint-violation error before writing a
row for that record, while the rows for the earlier records stay written;
and the whole call succeeds iff every record's creation block matches. -/
theorem C6_insert_per_record_check (t : Table) (block : Int)
    (pre : List StoredDynamicDataSource) (ds : StoredDynamicDataSource)
    (post : List StoredDynamicDataSource)
    (hpre : ∀ d ∈ pre, d.creation_block = some block)
    (hds : ds.creation_block ≠ some block) :
    insert t (pre ++ ds :: post) block =
      ((insert t pre block).1, DbResult.err errMismatch) ∧
    (insert t pre block).1.rows.length = t.rows.length + pre.length ∧
    (∀ dss : List StoredDynamicDataSource,
      (∃ n, (insert t dss block).2 = DbResult.ok n) ↔
        ∀ d ∈ dss, d.creation_block = some block) := by
  refine ⟨insert_fail_at block ds hds post pre t hpre, ?_,
    fun dss => insert_ok_iff block dss t⟩
  rcases insert_all_ok block pre t hpre with ⟨new, _, hrows, _, hlen, _⟩
  rw [hrows]
  simp [hlen]

/-- Witness for C6: a mismatching record (created at 21) in the middle of
a batch inserted at block 20. -/
theorem C6_witness :
    (∀ d ∈ [wOn 20], d.creation_block = some 20) ∧
    (wOn 21).creation_block ≠ some 20 ∧
    (insert wTable ([wOn 20] ++ wOn 21 :: [wOff 20]) 20 =
      ((insert wTable [wOn 20] 20).1, DbResult.err errMismatch) ∧
    (insert wTable [wOn 20] 20).1.rows.length =
      wTable.rows.length + List.length [wOn 20] ∧
    (∀ dss : List StoredDynamicDataSource,
      (∃ n, (insert wTable dss 20).2 = DbResult.ok n) ↔
        ∀ d ∈ dss, d.creation_block = some 20)) :=
  ⟨by decide, by decide,
    C6_insert_per_record_check wTable 20 [wOn 20] (wOn 21) [wOff 20]
      (by decide) (by decide)⟩

/-! ### Lemmas about `revert` -/

/-- Membership in a reverted table: exactly the rows not matching the
delete condition survive. -/
theorem mem_revert (t : Table) (b : Int) (r : Row) :
    r ∈ (revert t b).rows ↔ r ∈ t.rows ∧
      ¬(rangeContains r.block_range b = true ∧ rangeLower r.block_range = some b) := by
  simp [revert, List.mem_filter, delCond, not_and]
  intro _
  cases h : rangeContains r.block_range b <;> simp

/-- A row that is live strictly before `b` is never deleted by
`revert b`. -/
theorem delCond_false_of_live_earlier (b b' : Int) (hb : b' < b) (r : Row)
    (hlive : liveAt b' r = true) : delCond b r = false := by
  rw [delCond]
  cases hrng : r.block_range with
  | empty => rw [liveAt, hrng] at hlive; simp [rangeContains] at hlive
  | mk lo hi =>
    cases lo with
    | included l =>
      rw [liveAt, hrng, rangeContains] at hlive
      simp only [Bool.and_eq_true] at hlive
      rcases hlive with ⟨hlo, _⟩
      rw [bndLoOk, decide_eq_true_eq] at hlo
      have hlb : l ≠ b := by omega
      simp [hrng, rangeLower, hlb]
    | excluded l =>
      rw [liveAt, hrng, rangeContains] at hlive
      simp only [Bool.and_eq_true] at hlive
      rcases hlive with ⟨hlo, _⟩
      rw [bndLoOk, decide_eq_true_eq] at hlo
      have hlb : l ≠ b := by omega
      simp [hrng, rangeLower, hlb]
    | unbounded => simp [hrng, rangeLower]

/-- A row written by `insert` at block `b` is not live at any `b' < b`. -/
theorem new_row_not_live_earlier (b b' : Int) (hb : b' < b) (r : Row)
    (hr : r.block_range = Rng.mk (Bnd.included b) Bnd.unbounded) :
    liveAt b' r = false := by
  rw [liveAt, hr, rangeContains, bndLoOk, bndHiOk]
  simp
  omega

/-- Inserting at `b` and reverting `b` leaves the set of rows live at any
earlier block exactly as it was. -/
theorem revert_insert_filter (t : Table) (b b' : Int) (hb : b' < b)
    (batch : List StoredDynamicDataSource) :
    List.filter (liveAt b') (revert (insert t batch b).1 b).rows =
      List.filter (liveAt b') t.rows := by
  rcases insert_rows_spec b batch t with ⟨new, hrows, hnew⟩
  have hrv : (revert (insert t batch b).1 b).rows =
      List.filter (fun r => ! delCond b r) (insert t batch b).1.rows := rfl
  rw [hrv, List.filter_filter, hrows, List.filter_append]
  have hnil : List.filter (fun a => liveAt b' a && ! delCond b a) new = [] := by
    rw [List.filter_eq_nil_iff]
    intro r hr
    rw [new_row_not_live_earlier b b' hb r (hnew r hr)]
    simp
  rw [hnil, List.append_nil]
  apply List.filter_congr
  intro r _
  cases hlive : liveAt b' r with
  | false => simp
  | true => simp [delCond_false_of_live_earlier b b' hb r hlive]

/-- The creation block and value fields that a successful decode carries
over from the row. -/
theorem decode_fields (r : Row) (v : StoredDynamicDataSource)
    (h : decodeRow r = some v) :
    v.creation_block = rangeLower r.block_range ∧ v.manifest_idx = r.manifest_idx ∧
    v.param = r.param ∧ v.context = r.context := by
  cases hrng : r.block_range with
  | empty => simp [decodeRow, hrng] at h
  | mk lo hi =>
    cases lo with
    | included l =>
      simp only [decodeRow, hrng, Option.some.injEq] at h
      subst h
      simp [hrng, rangeLower]
    | excluded l => simp [decodeRow, hrng] at h
    | unbounded => simp [decodeRow, hrng] at h

/-- C2: `revert b` deletes exactly the rows containing `b` whose lower
bound equals `b`; consequently, after inserting a batch at `b` and
reverting `b`, `load` at every earlier block equals its pre-insert
result, `load b` no longer contains any of the inserted records, and
every row created at an earlier block and still open survives. -/
theorem C2_revert_inverts_insert (t : Table) (b : Int)
    (batch : List StoredDynamicDataSource) (n : Nat)
    (hins : (insert t batch b).2 = DbResult.ok n) :
    (∀ r : Row, r ∈ (revert (insert t batch b).1 b).rows ↔
      (r ∈ (insert t batch b).1.rows ∧
        ¬(rangeContains r.block_range b = true ∧ rangeLower r.block_range = some b))) ∧
    (∀ b', b' < b → load (revert (insert t batch b).1 b) b' = load t b') ∧
    (∀ l, load (revert (insert t batch b).1 b) b = DbResult.ok l →
      ∀ ds ∈ batch, ds ∉ l) ∧
    (∀ r ∈ t.rows, (∃ c, rangeLower r.block_range = some c ∧ c < b) →
      rangeUpper r.block_range = none → r ∈ (revert (insert t batch b).1 b).rows) := by
  refine ⟨fun r => mem_revert _ b r, ?_, ?_, ?_⟩
  · intro b' hb
    exact load_congr _ t b' (revert_insert_filter t b b' hb batch)
  · intro l hl ds hds hmem
    rcases load_ok_mem _ b l hl ds hmem with ⟨r, hr, hlive, hdec⟩
    rcases (mem_revert _ b r).mp hr with ⟨_, hnot⟩
    have hcontains : rangeContains r.block_range b = true := hlive
    have hlower : rangeLower r.block_range ≠ some b := by
      intro hcb
      exact hnot ⟨hcontains, hcb⟩
    have hdsb : ds.creation_block = some b :=
      (insert_ok_iff b batch t).mp ⟨n, hins⟩ ds hds
    rcases decode_fields r ds hdec with ⟨hcb, _, _, _⟩
    rw [hdsb] at hcb
    exact hlower hcb.symm
  · intro r hr hc _
    rcases hc with ⟨c, hcl, hclt⟩
    rcases insert_rows_spec b batch t with ⟨new, hrows, _⟩
    refine (mem_revert _ b r).mpr ⟨?_, ?_⟩
    · rw [hrows]
      exact List.mem_append.mpr (Or.inl hr)
    · rintro ⟨_, hlb⟩
      rw [hcl] at hlb
      have : c = b := by injection hlb
      omega

/-- Witness for C2: inserting one on-chain record at block 20 into
`wTable` and reverting block 20. -/
theorem C2_witness :
    (insert wTable [wOn 20] 20).2 = DbResult.ok 1 ∧
    ((∀ r : Row, r ∈ (revert (insert wTable [wOn 20] 20).1 20).rows ↔
      (r ∈ (insert wTable [wOn 20] 20).1.rows ∧
        ¬(rangeContains r.block_range 20 = true ∧ rangeLower r.block_range = some 20))) ∧
    (∀ b', b' < 20 → load (revert (insert wTable [wOn 20] 20).1 20) b' = load wTable b') ∧
    (∀ l, load (revert (insert wTable [wOn 20] 20).1 20) 20 = DbResult.ok l →
      ∀ ds ∈ [wOn 20], ds ∉ l) ∧
    (∀ r ∈ wTable.rows, (∃ c, rangeLower r.block_range = some c ∧ c < 20) →
      rangeUpper r.block_range = none →
        r ∈ (revert (insert wTable [wOn 20] 20).1 20).rows)) :=
  ⟨by decide, C2_revert_inverts_insert wTable 20 [wOn 20] 1 (by decide)⟩

/-! ### Lemmas about `copy_to` -/

theorem selB_spec (target : Int) (r : Row) :
    selB target r = true ↔ ∃ l, rangeLower r.block_range = some l ∧ l ≤ target := by
  rw [selB]
  cases h : rangeLower r.block_range with
  | none => simp
  | some l => simp

theorem copiedRows_length (target v : Int) (l : List Row) :
    (copiedRows target v l).length = l.length := by
  induction l generalizing v with
  | nil => rfl
  | cons r rs ih => simp [copiedRows, ih]

/-- The pointwise relation between a selected source row and its copy. -/
theorem copiedRows_forall2 (target : Int) (sel : List Row)
    (hsel : ∀ r ∈ sel, selB target r = true) :
    ∀ v : Int, List.Forall₂ (fun r c =>
      c.manifest_idx = r.manifest_idx ∧ c.param = r.param ∧ c.context = r.context ∧
      c.causality_region = r.causality_region ∧ c.parent = r.parent ∧ c.id = r.id ∧
      ((∃ u, rangeUpper r.block_range = some u ∧ u ≤ target ∧
          c.block_range = r.block_range) ∨
       ((rangeUpper r.block_range = none ∨
          ∃ u, rangeUpper r.block_range = some u ∧ target < u) ∧
        ∃ l, rangeLower r.block_range = some l ∧
          c.block_range = Rng.mk (Bnd.included l) Bnd.unbounded)))
      sel (copiedRows target v sel) := by
  induction sel with
  | nil => intro v; exact List.Forall₂.nil
  | cons r rs ih =>
    intro v
    refine List.Forall₂.cons ?_
      (ih (fun x hx => hsel x (List.mem_cons_of_mem r hx)) (v + 1))
    rcases (selB_spec target r).mp (hsel r (List.mem_cons_self r rs)) with ⟨l, hl, hle⟩
    refine ⟨rfl, rfl, rfl, rfl, rfl, rfl, ?_⟩
    cases hu : rangeUpper r.block_range with
    | some u =>
      by_cases hut : u ≤ target
      · exact Or.inl ⟨u, rfl, hut, by simp [copiedRow, reboundRange, hu, hut]⟩
      · refine Or.inr ⟨Or.inr ⟨u, rfl, by omega⟩, l, hl, ?_⟩
        simp [copiedRow, reboundRange, hu, hut, hl, int4range]
    | none =>
      refine Or.inr ⟨Or.inl rfl, l, hl, ?_⟩
      simp [copiedRow, reboundRange, hu, hl, int4range]

/-- C3: into an empty destination, `copy_to` copies exactly the source
rows whose lower bound is at most `target` (a `null` lower bound is never
selected): each copy carries over every column, keeping the range when
its upper bound is at most `target` and otherwise re-opening it to
`[lower, +∞)`; the returned count is the number of rows copied. -/
theorem C3_copy_to_spec (src dst : Table) (target : Int) (hdst : dst.rows = []) :
    (∀ r : Row, selB target r = true ↔
      ∃ l, rangeLower r.block_range = some l ∧ l ≤ target) ∧
    (copy_to src dst target).2 = (List.filter (selB target) src.rows).length ∧
    List.Forall₂ (fun r c =>
      c.manifest_idx = r.manifest_idx ∧ c.param = r.param ∧ c.context = r.context ∧
      c.causality_region = r.causality_region ∧ c.parent = r.parent ∧ c.id = r.id ∧
      ((∃ u, rangeUpper r.block_range = some u ∧ u ≤ target ∧
          c.block_range = r.block_range) ∨
       ((rangeUpper r.block_range = none ∨
          ∃ u, rangeUpper r.block_range = some u ∧ target < u) ∧
        ∃ l, rangeLower r.block_range = some l ∧
          c.block_range = Rng.mk (Bnd.included l) Bnd.unbounded)))
      (List.filter (selB target) src.rows) (copy_to src dst target).1.rows := by
  have hrows : (copy_to src dst target).1.rows =
      copiedRows target dst.next_vid (List.filter (selB target) src.rows) := by
    simp [copy_to, hdst]
  refine ⟨selB_spec target, by simp [copy_to, hdst], ?_⟩
  rw [hrows]
  exact copiedRows_forall2 target _ (fun r hr => (List.mem_filter.mp hr).2) dst.next_vid

/-- Witness for C3: copying `wTable` (rows created at 10 and 5) into an
empty table with target block 7. -/
theorem C3_witness :
    emptyTable.rows = [] ∧
    ((∀ r : Row, selB 7 r = true ↔
      ∃ l, rangeLower r.block_range = some l ∧ l ≤ 7) ∧
    (copy_to wTable emptyTable 7).2 = (List.filter (selB 7) wTable.rows).length ∧
    List.Forall₂ (fun r c =>
      c.manifest_idx = r.manifest_idx ∧ c.param = r.param ∧ c.context = r.context ∧
      c.causality_region = r.causality_region ∧ c.parent = r.parent ∧ c.id = r.id ∧
      ((∃ u, rangeUpper r.block_range = some u ∧ u ≤ 7 ∧
          c.block_range = r.block_range) ∨
       ((rangeUpper r.block_range = none ∨
          ∃ u, rangeUpper r.block_range = some u ∧ 7 < u) ∧
        ∃ l, rangeLower r.block_range = some l ∧
          c.block_range = Rng.mk (Bnd.included l) Bnd.unbounded)))
      (List.filter (selB 7) wTable.rows) (copy_to wTable emptyTable 7).1.rows) :=
  ⟨rfl, C3_copy_to_spec wTable emptyTable 7 rfl⟩

theorem copy_to_nonempty (src dst : Table) (target : Int) (h : 0 < dst.rows.length) :
    copy_to src dst target = (dst, dst.rows.length) := by
  simp [copy_to, h]

/-- C7: when the destination already holds rows, `copy_to` copies nothing
and returns the existing row count; consequently a second `copy_to` right
after a first one returns the same pair (same count, no duplicated rows). -/
theorem C7_copy_to_idempotent (src dst : Table) (target : Int) :
    (0 < dst.rows.length → copy_to src dst target = (dst, dst.rows.length)) ∧
    copy_to src (copy_to src dst target).1 target = copy_to src dst target := by
  refine ⟨fun h => copy_to_nonempty src dst target h, ?_⟩
  by_cases h : 0 < dst.rows.length
  · rw [copy_to_nonempty src dst target h]
    exact copy_to_nonempty src dst target h
  · have hdst : dst.rows = [] := by
      cases hl : dst.rows with
      | nil => rfl
      | cons a as => rw [hl] at h; simp at h
    cases hsel : List.filter (selB target) src.rows with
    | nil =>
      have hfirst : copy_to src dst target = (dst, 0) := by
        simp [copy_to, h, hsel, copiedRows]
      rw [hfirst]
      exact hfirst
    | cons c cs =>
      have h1 : (copy_to src dst target).1.rows.length = (c :: cs).length := by
        simp [copy_to, h, hsel, hdst, copiedRows_length]
      have h2 : (copy_to src dst target).2 = (c :: cs).length := by
        simp [copy_to, h, hsel]
      rw [copy_to_nonempty src (copy_to src dst target).1 target (by rw [h1]; simp)]
      have heq : (copy_to src dst target).1.rows.length = (copy_to src dst target).2 :=
        h1.trans h2.symm
      calc ((copy_to src dst target).1, (copy_to src dst target).1.rows.length)
          = ((copy_to src dst target).1, (copy_to src dst target).2) := by rw [heq]
        _ = copy_to src dst target := rfl

/-- Witness for C7 at the concrete nonempty `wTable` as destination. -/
theorem C7_witness :
    copy_to wTable wTable 7 = (wTable, wTable.rows.length) ∧
    copy_to wTable (copy_to wTable wTable 7).1 7 = copy_to wTable wTable 7 :=
  ⟨(C7_copy_to_idempotent wTable wTable 7).1 (by decide),
   (C7_copy_to_idempotent wTable wTable 7).2⟩

theorem reboundRange_ne_empty (target : Int) (rg : Rng) (h : rg ≠ Rng.empty) :
    reboundRange target rg ≠ Rng.empty := by
  cases rg with
  | empty => exact absurd rfl h
  | mk lo hi =>
    rw [reboundRange]
    cases hu : rangeUpper (Rng.mk lo hi) with
    | some u =>
      by_cases hle : u ≤ target
      · simp [hle]
      · simp only [hle, if_neg, ite_false]
        cases hl : rangeLower (Rng.mk lo hi) <;> simp [int4range]
    | none => cases hl : rangeLower (Rng.mk lo hi) <;> simp [int4range]

/-- Every row of a `copiedRows` batch is the copy of some selected row. -/
theorem mem_copiedRows (target : Int) (l : List Row) :
    ∀ (v : Int) (c : Row), c ∈ copiedRows target v l →
      ∃ r ∈ l, ∃ w, c = copiedRow target w r := by
  induction l with
  | nil => intro v c hc; cases hc
  | cons r rs ih =>
    intro v c hc
    rcases List.mem_cons.mp hc with rfl | hc'
    · exact ⟨r, List.mem_cons_self r rs, v, rfl⟩
    · rcases ih (v + 1) c hc' with ⟨r', hr', w, hw⟩
      exact ⟨r', List.mem_cons_of_mem r hr', w, hw⟩

/-- C10: a row whose range is the empty interval has a `null` lower bound,
so `copy_to` never selects it, and no row of the freshly copied
destination has an empty range — rows closed by `remove_offchain` are
never migrated. -/
theorem C10_copy_to_skips_empty (src dst : Table) (target : Int) (hdst : dst.rows = []) :
    (∀ r : Row, r.block_range = Rng.empty → selB target r = false) ∧
    (copy_to src dst target).1.rows.length =
      (List.filter (selB target) src.rows).length ∧
    (∀ c ∈ (copy_to src dst target).1.rows, c.block_range ≠ Rng.empty) := by
  have hrows : (copy_to src dst target).1.rows =
      copiedRows target dst.next_vid (List.filter (selB target) src.rows) := by
    simp [copy_to, hdst]
  refine ⟨?_, ?_, ?_⟩
  · intro r hr
    rw [selB, hr]
    rfl
  · rw [hrows, copiedRows_length]
  · intro c hc
    rw [hrows] at hc
    rcases mem_copiedRows target _ dst.next_vid c hc with ⟨r, hr, w, rfl⟩
    have hsel : selB target r = true := (List.mem_filter.mp hr).2
    have hne : r.block_range ≠ Rng.empty := by
      intro hemp
      rw [selB, hemp] at hsel
      cases hsel
    exact reboundRange_ne_empty target r.block_range hne

/-- Witness for C10: copying `wTable` into an empty table at target 7. -/
theorem C10_witness :
    (∀ r : Row, r.block_range = Rng.empty → selB 7 r = false) ∧
    (copy_to wTable emptyTable 7).1.rows.length =
      (List.filter (selB 7) wTable.rows).length ∧
    (∀ c ∈ (copy_to wTable emptyTable 7).1.rows, c.block_range ≠ Rng.empty) :=
  C10_copy_to_skips_empty wTable emptyTable 7 rfl

/-! ### Lemmas about `remove_offchain` -/

theorem remove_offchain_cons_onchain (t : Table) (ds : StoredDynamicDataSource)
    (rest : List StoredDynamicDataSource) (hoff : ds.is_offchain = false) :
    remove_offchain t (ds :: rest) = (t, DbResult.err errOnchain) := by
  simp [remove_offchain, hoff]

theorem remove_offchain_cons_multi (t : Table) (ds : StoredDynamicDataSource)
    (rest : List StoredDynamicDataSource) (hoff : ds.is_offchain = true)
    (hcnt : 1 < (List.filter (matchesDS ds) t.rows).length) :
    remove_offchain t (ds :: rest) = (applyRemove ds t, DbResult.err errMulti) := by
  simp [remove_offchain, hoff, hcnt]

theorem remove_offchain_cons_ok (t : Table) (ds : StoredDynamicDataSource)
    (rest : List StoredDynamicDataSource) (hoff : ds.is_offchain = true)
    (hcnt : ¬ 1 < (List.filter (matchesDS ds) t.rows).length) :
    remove_offchain t (ds :: rest) = remove_offchain (applyRemove ds t) rest := by
  simp [remove_offchain, hoff, hcnt]

/-- A prefix of the loop that succeeds lets the rest of the loop continue
from the prefix's final state. -/
theorem remove_offchain_append_ok (l2 : List StoredDynamicDataSource) :
    ∀ (l1 : List StoredDynamicDataSource) (t : Table),
    (remove_offchain t l1).2 = DbResult.ok () →
    remove_offchain t (l1 ++ l2) = remove_offchain (remove_offchain t l1).1 l2 := by
  intro l1
  induction l1 with
  | nil => intro t _; rfl
  | cons ds rest ih =>
    intro t hok
    cases hoff : ds.is_offchain with
    | false =>
      rw [remove_offchain_cons_onchain t ds rest hoff] at hok
      cases hok
    | true =>
      by_cases hcnt : 1 < (List.filter (matchesDS ds) t.rows).length
      · rw [remove_offchain_cons_multi t ds rest hoff hcnt] at hok
        cases hok
      · rw [remove_offchain_cons_ok t ds rest hoff hcnt] at hok
        have hstep : remove_offchain t (ds :: (rest ++ l2)) =
            remove_offchain (applyRemove ds t) (rest ++ l2) :=
          remove_offchain_cons_ok t ds (rest ++ l2) hoff hcnt
        rw [List.cons_append, hstep, remove_offchain_cons_ok t ds rest hoff hcnt]
        exact ih (applyRemove ds t) hok

/-- C8: an on-chain record in the input makes `remove_offchain` fail with
a constraint-violation error before performing that record's update; an
off-chain record whose value match would affect more than one row makes
it fail with a constraint-violation error instead of silently picking
one row. -/
theorem C8_remove_offchain_guards (t : Table)
    (pre : List StoredDynamicDataSource) (ds : StoredDynamicDataSource)
    (post : List StoredDynamicDataSource)
    (hpre : (remove_offchain t pre).2 = DbResult.ok ()) :
    (ds.is_offchain = false →
      remove_offchain t (pre ++ ds :: post) =
        ((remove_offchain t pre).1, DbResult.err errOnchain)) ∧
    (ds.is_offchain = true →
      1 < (List.filter (matchesDS ds) (remove_offchain t pre).1.rows).length →
      remove_offchain t (pre ++ ds :: post) =
        (applyRemove ds (remove_offchain t pre).1, DbResult.err errMulti)) := by
  constructor
  · intro hoff
    rw [remove_offchain_append_ok (ds :: post) pre t hpre]
    exact remove_offchain_cons_onchain _ ds post hoff
  · intro hoff hcnt
    rw [remove_offchain_append_ok (ds :: post) pre t hpre]
    exact remove_offchain_cons_multi _ ds post hoff hcnt

/-- Witness for C8: an on-chain record rejected up front, and a duplicated
off-chain record rejected because two rows would be affected. -/
theorem C8_witness :
    (remove_offchain wTable ([] ++ wOn 10 :: []) =
      ((remove_offchain wTable []).1, DbResult.err errOnchain)) ∧
    (remove_offchain dupTable ([] ++ wOff 5 :: []) =
      (applyRemove (wOff 5) (remove_offchain dupTable []).1, DbResult.err errMulti)) :=
  ⟨(C8_remove_offchain_guards wTable [] (wOn 10) [] (by decide)).1 (by decide),
   (C8_remove_offchain_guards dupTable [] (wOff 5) [] (by decide)).2
     (by decide) (by decide)⟩

/-! ### Soft-deleted rows stay invisible (for C9) -/

theorem forall2_emptyStep_refl (l : List Row) : List.Forall₂ emptyStep l l := by
  induction l with
  | nil => exact List.Forall₂.nil
  | cons r rs ih => exact List.Forall₂.cons (Or.inl rfl) ih

theorem setEmpty_setEmpty (r : Row) : setEmpty (setEmpty r) = setEmpty r := rfl

theorem emptyStep_trans {a b c : Row} (h1 : emptyStep a b) (h2 : emptyStep b c) :
    emptyStep a c := by
  rcases h1 with rfl | rfl <;> rcases h2 with rfl | rfl
  · exact Or.inl rfl
  · exact Or.inr rfl
  · exact Or.inr rfl
  · exact Or.inr (setEmpty_setEmpty a)

theorem forall2_emptyStep_trans : ∀ {A B C : List Row},
    List.Forall₂ emptyStep A B → List.Forall₂ emptyStep B C →
    List.Forall₂ emptyStep A C := by
  intro A B C h1
  induction h1 generalizing C with
  | nil =>
    intro h2
    cases h2
    exact List.Forall₂.nil
  | cons hab h1' ih =>
    intro h2
    cases h2 with
    | cons hbc h2' => exact List.Forall₂.cons (emptyStep_trans hab hbc) (ih h2')

theorem applyRemove_forall2 (ds : StoredDynamicDataSource) (t : Table) :
    List.Forall₂ emptyStep t.rows (applyRemove ds t).rows := by
  show List.Forall₂ emptyStep t.rows
    (t.rows.map (fun r => if matchesDS ds r then setEmpty r else r))
  induction t.rows with
  | nil => exact List.Forall₂.nil
  | cons r rs ih =>
    refine List.Forall₂.cons ?_ ih
    show emptyStep r (if matchesDS ds r then setEmpty r else r)
    by_cases hm : matchesDS ds r = true
    · rw [if_pos hm]; exact Or.inr rfl
    · rw [if_neg hm]; exact Or.inl rfl

theorem remove_offchain_forall2 (dss : List StoredDynamicDataSource) :
    ∀ t : Table, List.Forall₂ emptyStep t.rows (remove_offchain t dss).1.rows := by
  induction dss with
  | nil => intro t; exact forall2_emptyStep_refl t.rows
  | cons ds rest ih =>
    intro t
    cases hoff : ds.is_offchain with
    | false =>
      rw [remove_offchain_cons_onchain t ds rest hoff]
      exact forall2_emptyStep_refl t.rows
    | true =>
      by_cases hcnt : 1 < (List.filter (matchesDS ds) t.rows).length
      · rw [remove_offchain_cons_multi t ds rest hoff hcnt]
        exact applyRemove_forall2 ds t
      · rw [remove_offchain_cons_ok t ds rest hoff hcnt]
        exact forall2_emptyStep_trans (applyRemove_forall2 ds t) (ih (applyRemove ds t))

theorem forall2_mem_right {R : Row → Row → Prop} : ∀ {A B : List Row},
    List.Forall₂ R A B → ∀ b ∈ B, ∃ a ∈ A, R a b := by
  intro A B h
  induction h with
  | nil => intro b hb; cases hb
  | cons hr hrest ih =>
    intro b hb
    rcases List.mem_cons.mp hb with rfl | hb'
    · exact ⟨_, List.mem_cons_self _ _, hr⟩
    · rcases ih b hb' with ⟨a, ha, hR⟩
      exact ⟨a, List.mem_cons_of_mem _ ha, hR⟩

/-- Right after `applyRemove ds`, no live row matches `ds`. -/
theorem no_live_match_applyRemove (ds : StoredDynamicDataSource) (t : Table) (b : Int) :
    ∀ r ∈ (applyRemove ds t).rows, liveAt b r = true → matchesDS ds r = false := by
  intro r hr hlive
  rcases List.mem_map.mp hr with ⟨r0, _, heq⟩
  by_cases hm : matchesDS ds r0 = true
  · rw [if_pos hm] at heq
    subst heq
    rw [liveAt, setEmpty] at hlive
    simp [rangeContains] at hlive
  · rw [if_neg hm] at heq
    subst heq
    exact Bool.eq_false_iff.mpr hm

/-- `emptyStep` transformations preserve "no live row matches `ds`". -/
theorem no_live_match_mono (ds : StoredDynamicDataSource) (b : Int) {A B : List Row}
    (h : List.Forall₂ emptyStep A B)
    (hA : ∀ r ∈ A, liveAt b r = true → matchesDS ds r = false) :
    ∀ r ∈ B, liveAt b r = true → matchesDS ds r = false := by
  intro r hr hlive
  rcases forall2_mem_right h r hr with ⟨a, ha, hstep⟩
  rcases hstep with rfl | rfl
  · exact hA r ha hlive
  · rw [liveAt, setEmpty] at hlive
    simp [rangeContains] at hlive

/-- C9: for an off-chain record reached by the loop, the update sets every
row matching `(manifest_idx, param, context, creation_block)` under
null-safe value equality to the empty range, and after the call no `load`
at any block returns a value with those four fields. -/
theorem C9_remove_offchain_invisible (t : Table)
    (pre post : List StoredDynamicDataSource) (ds : StoredDynamicDataSource)
    (hoff : ds.is_offchain = true)
    (hpre : (remove_offchain t pre).2 = DbResult.ok ()) :
    ((applyRemove ds (remove_offchain t pre).1).rows =
      (remove_offchain t pre).1.rows.map
        (fun r => if matchesDS ds r then setEmpty r else r)) ∧
    (∀ r : Row, matchesDS ds r = true ↔
      (r.manifest_idx = ds.manifest_idx ∧ r.param = ds.param ∧
       r.context = ds.context ∧ rangeLower r.block_range = ds.creation_block)) ∧
    (∀ b : Int, ∀ l, load (remove_offchain t (pre ++ ds :: post)).1 b = DbResult.ok l →
      ∀ v ∈ l, ¬(v.manifest_idx = ds.manifest_idx ∧ v.param = ds.param ∧
        v.context = ds.context ∧ v.creation_block = ds.creation_block)) := by
  refine ⟨rfl, ?_, ?_⟩
  · intro r
    simp [matchesDS, Bool.and_eq_true, decide_eq_true_eq, and_assoc]
  · intro b l hl v hv hbad
    have hfin : remove_offchain t (pre ++ ds :: post) =
        remove_offchain (remove_offchain t pre).1 (ds :: post) :=
      remove_offchain_append_ok (ds :: post) pre t hpre
    set t1 := (remove_offchain t pre).1 with ht1
    have hnolive : ∀ r ∈ (remove_offchain t (pre ++ ds :: post)).1.rows,
        liveAt b r = true → matchesDS ds r = false := by
      rw [hfin]
      by_cases hcnt : 1 < (List.filter (matchesDS ds) t1.rows).length
      · rw [remove_offchain_cons_multi t1 ds post hoff hcnt]
        exact no_live_match_applyRemove ds t1 b
      · rw [remove_offchain_cons_ok t1 ds post hoff hcnt]
        exact no_live_match_mono ds b (remove_offchain_forall2 post (applyRemove ds t1))
          (no_live_match_applyRemove ds t1 b)
    rcases load_ok_mem _ b l hl v hv with ⟨r, hr, hlive, hdec⟩
    have hmatch : matchesDS ds r = false := hnolive r hr hlive
    rcases decode_fields r v hdec with ⟨hcb, hmi, hp, hctx⟩
    rcases hbad with ⟨h1, h2, h3, h4⟩
    have : matchesDS ds r = true := by
      rw [matchesDS]
      simp [← hmi, ← hp, ← hctx, ← hcb, h1, h2, h3, h4]
    rw [this] at hmatch
    cases hmatch

/-- Witness for C9: removing the off-chain record matching `wRowB` from
`wTable`. -/
theorem C9_witness :
    ((applyRemove (wOff 5) (remove_offchain wTable []).1).rows =
      (remove_offchain wTable []).1.rows.map
        (fun r => if matchesDS (wOff 5) r then setEmpty r else r)) ∧
    (∀ r : Row, matchesDS (wOff 5) r = true ↔
      (r.manifest_idx = (wOff 5).manifest_idx ∧ r.param = (wOff 5).param ∧
       r.context = (wOff 5).context ∧ rangeLower r.block_range = (wOff 5).creation_block)) ∧
    (∀ b : Int, ∀ l, load (remove_offchain wTable ([] ++ wOff 5 :: [])).1 b = DbResult.ok l →
      ∀ v ∈ l, ¬(v.manifest_idx = (wOff 5).manifest_idx ∧ v.param = (wOff 5).param ∧
        v.context = (wOff 5).context ∧ v.creation_block = (wOff 5).creation_block)) :=
  C9_remove_offchain_invisible wTable [] [] (wOff 5) (by decide) (by decide)

end DynDS
